import Mathlib

/-
Verification of the context-resolution and template-rendering pipeline of
pypi2deb (pypi2deb/debianize.py).  The Python code is shallowly embedded:
file contents are strings (reasoned about through their character lists),
the filesystem is an association list from paths to contents, the shared
context dictionary is an association list from string keys to string
values, and Python sets are represented as duplicate-free lists.  External
collaborators (the jinja2 template engine, dhpython dependency guessing,
the dch helper, the maintainer identity lookup) are taken as parameters.
-/

set_option autoImplicit false

namespace Pypi2deb

/-! ### Character and string primitives mirroring the Python builtins -/

/-- Whitespace characters recognised by the Python str.strip default. -/
def isPySpace (c : Char) : Bool :=
  c = ' ' || c = '\t' || c = '\n' || c = '\r' || c = '\x0b' || c = '\x0c'

/-- Python str.strip on a character list: drop whitespace at both ends. -/
def pyStripCore (l : List Char) : List Char :=
  ((l.dropWhile isPySpace).reverse.dropWhile isPySpace).reverse

/-- Python str.split with separator a newline, on character lists.
Keeps empty fragments, and the empty string yields one empty fragment,
exactly as in Python. -/
def splitNL : List Char → List (List Char)
  | [] => [[]]
  | c :: rest =>
    if c = '\n' then [] :: splitNL rest
    else
      match splitNL rest with
      | [] => [[c]]
      | l :: ls => (c :: l) :: ls

/-- The physical lines produced by iterating over an open Python text file
(with the trailing newline markers stripped away): iteration yields no line
for an empty file and no empty final line when the content ends with a
newline. -/
def pyFileLines (s : List Char) : List (List Char) :=
  if s = [] then []
  else
    let r := splitNL s
    if r.getLast? = some [] then r.dropLast else r

/-- Python fp.readline: the first line of the content, including its
terminating newline when present. -/
def pyReadlineCore : List Char → List Char
  | [] => []
  | c :: rest => if c = '\n' then ['\n'] else c :: pyReadlineCore rest

/-- Boolean membership in a list, used to model the Python in operator on
sets and lists. -/
def listHas {α : Type} [DecidableEq α] : List α → α → Bool
  | [], _ => false
  | y :: r, x => if y = x then true else listHas r x

/-- Python set.add modelled on duplicate-free lists. -/
def pySetAdd {α : Type} [DecidableEq α] (s : List α) (x : α) : List α :=
  if listHas s x then s else s ++ [x]

/-- Python substring containment (the in operator on strings). -/
def pyInCore (needle : List Char) : List Char → Bool
  | [] => needle.isEmpty
  | c :: rest => needle.isPrefixOf (c :: rest) || pyInCore needle rest

/-- Python str.startswith. -/
def pyStartsWith (s pre : String) : Bool :=
  pre.data.isPrefixOf s.data

/-- Python str.endswith. -/
def pyEndsWith (s suf : String) : Bool :=
  suf.data.reverse.isPrefixOf s.data.reverse

/-- Python truthiness of line.strip(): true when the line is whitespace
only (so that not line.strip() holds). -/
def pyIsBlank (s : String) : Bool :=
  s.data.all isPySpace

/-- Python substring containment on strings. -/
def pyIn (needle haystack : String) : Bool :=
  pyInCore needle.data haystack.data

/-- Python fp.readline on strings. -/
def pyReadline (s : String) : String :=
  String.mk (pyReadlineCore s.data)

/-- Python str.replace of one tab by four spaces, on character lists. -/
def tabCore (l : List Char) : List Char :=
  l.flatMap (fun c => if c = '\t' then [' ', ' ', ' ', ' '] else [c])

/-- Python line.replace of tabs by four spaces. -/
def tabExpand (s : String) : String :=
  String.mk (tabCore s.data)

/-- Python slicing fname[:-n]: everything but the last n characters. -/
def pyDropRight (s : String) (n : Nat) : String :=
  String.mk (s.data.take (s.data.length - n))

/-- Core loop of Python str.replace (all occurrences, left to right); the
fuel argument is instantiated with the length of the scanned list, which
the scan never exceeds. -/
def replaceGo (pat rep : List Char) : Nat → List Char → List Char
  | _, [] => []
  | 0, l => l
  | fuel + 1, c :: rest =>
    if pat.isPrefixOf (c :: rest) then
      rep ++ replaceGo pat rep fuel ((c :: rest).drop pat.length)
    else
      c :: replaceGo pat rep fuel rest

/-- Python str.replace on character lists.  An empty pattern interleaves
the replacement everywhere, as in Python. -/
def pyReplaceCore (pat rep l : List Char) : List Char :=
  match pat with
  | [] => rep ++ l.flatMap (fun c => c :: rep)
  | _ :: _ => replaceGo pat rep l.length l

/-- Python str.replace. -/
def pyReplace (s pat rep : String) : String :=
  String.mk (pyReplaceCore pat.data rep.data s.data)

/-- os.path.join for two components, as the code uses it. -/
def pyJoin (a b : String) : String :=
  if pyStartsWith b "/" then b
  else if a = "" then b
  else if pyEndsWith a "/" then a ++ b
  else a ++ "/" ++ b

/-! ### The context dictionary and the filesystem -/

/-- The shared context: a Python dict from string keys to string values,
in insertion order. -/
abbrev Ctx : Type := List (String × String)

/-- Lookup of a key in a dict (first binding wins; dicts built by setKey
keep at most one binding per key). -/
def assocFind : List (String × String) → String → Option String
  | [], _ => none
  | (k2, v) :: r, k => if k2 = k then some v else assocFind r k

/-- Does the dict have a binding for the key. -/
def hasKey : List (String × String) → String → Bool
  | [], _ => false
  | (k2, _) :: r, k => if k2 = k then true else hasKey r k

/-- The binding rewrite performed by dict item assignment on a present
key. -/
def replaceKey (k v : String) (kv : String × String) : String × String :=
  if kv.1 = k then (k, v) else kv

/-- Python dict item assignment: replace the binding in place when the key
is present, append it otherwise. -/
def setKey (m : List (String × String)) (k v : String) : List (String × String) :=
  if hasKey m k then m.map (replaceKey k v)
  else m ++ [(k, v)]

/-- Python dict.update: assign every binding of the second dict in order. -/
def ctxUpdate (c d : List (String × String)) : List (String × String) :=
  d.foldl (fun acc kv => setKey acc kv.1 kv.2) c

/-- The filesystem: an association list from absolute paths to file
contents. -/
abbrev FS : Type := List (String × String)

/-- os.path.exists for a file path. -/
def fsExists (fs : FS) (p : String) : Bool :=
  hasKey fs p

/-- Writing a file (open with mode w): create or replace the content. -/
def fsWrite (fs : FS) (p content : String) : FS :=
  setKey fs p content

/-! ### Python str.format with named placeholders

debianize.py applies str.format twice: to the three vcs keys after the
layer merges, and to the itp mail file name.  Only plain named fields
appear in those strings; escape braces and format specifications are not
modelled. -/

/-- Scanner for str.format: outside a field (mode none) characters pass
through and an opening brace starts a field; inside a field (mode some
acc) characters accumulate until the closing brace, which substitutes the
looked-up value; a missing key or an unterminated field is an error, as
the Python calls raise. -/
def pyFmtGo (c : List (String × String)) : Option (List Char) → List Char → Except String (List Char)
  | none, [] => Except.ok []
  | some _, [] => Except.error "ValueError: unterminated field"
  | none, ch :: rest =>
    if ch = '{' then pyFmtGo c (some []) rest
    else
      match pyFmtGo c none rest with
      | Except.error e => Except.error e
      | Except.ok t => Except.ok (ch :: t)
  | some acc, ch :: rest =>
    if ch = '}' then
      match assocFind c (String.mk acc.reverse) with
      | none => Except.error "KeyError"
      | some v =>
        match pyFmtGo c none rest with
        | Except.error e => Except.error e
        | Except.ok t => Except.ok (v.data ++ t)
    else pyFmtGo c (some (ch :: acc)) rest

/-- Python s.format(**ctx) for the field shapes used in debianize.py. -/
def pyFormat (c : Ctx) (s : String) : Except String String :=
  match pyFmtGo c none s.data with
  | Except.error e => Except.error e
  | Except.ok l => Except.ok (String.mk l)

/-! ### The Layered Override Resolver (debianize, lines 61 to 88)

The filesystem probes are abstracted into Option arguments: each layer
document is some dict when the corresponding file exists and parses, none
when it is absent.  The override document is the one located under the
lower-cased package name. -/

/-- ctx.update with an absent layer skipped. -/
def applyLayer (c : Ctx) : Option Ctx → Ctx
  | none => c
  | some d => ctxUpdate c d

/-- The interpolation pass over the three vcs keys (lines 86 to 88): each
present key is formatted against the current context, in order. -/
def fmtFold : List String → Ctx → Except String Ctx
  | [], c => Except.ok c
  | key :: rest, c =>
    match assocFind c key with
    | none => fmtFold rest c
    | some v =>
      match pyFormat c v with
      | Except.error e => Except.error e
      | Except.ok v2 => fmtFold rest (setKey c key v2)

/-- The layer merges of debianize: inline setup.cfg section, then (when a
profile argument is given) the explicit profile file if it exists else the
named profile document, then always the per-package override document,
then the interpolation pass on vcs_src, vcs_browser and uploaders. -/
def resolveLayers (ctx0 : Ctx) (inlineCfg : Option Ctx) (profile : Option String)
    (explicitDoc namedDoc overrideDoc : Option Ctx) : Except String Ctx :=
  let c1 := applyLayer ctx0 inlineCfg
  let c2 :=
    match profile with
    | none => c1
    | some _ =>
      match explicitDoc with
      | some d => ctxUpdate c1 d
      | none => applyLayer c1 namedDoc
  let c3 := applyLayer c2 overrideDoc
  fmtFold ["vcs_src", "vcs_browser", "uploaders"] c3

/-! ### The Context Builder tree walk (update_ctx, lines 124 to 139)

The os.walk result is passed in as the list of visited (root, file_names)
pairs.  The state is the triple of binary_arch, build_depends and
clean_files. -/

/-- Does a directory entry list contain a compiled-extension source. -/
def hasCExt (files : List String) : Bool :=
  files.any (fun f => pyEndsWith f ".c" || pyEndsWith f ".cpp" || pyEndsWith f ".pyx")

/-- fname[:-3] + ext: the compiled sibling name of a Cython file. -/
def sibName (fname ext : String) : String :=
  pyDropRight fname 3 ++ ext

/-- The inner loop over the extensions c and cpp for one Cython file:
record each compiled sibling that is present in the same directory. -/
def pyxCleanStep (relRoot : String) (files cf : List String) (fname : String) : List String :=
  ["c", "cpp"].foldl
    (fun cf ext =>
      if listHas files (sibName fname ext) then pySetAdd cf (pyJoin relRoot (sibName fname ext))
      else cf)
    cf

/-- Processing of one file name inside a directory that contains compiled
extensions: a Cython file adds the per-interpreter cython build
dependencies and records its compiled siblings. -/
def pyxStep (relRoot : String) (interps files : List String)
    (st : List String × List String) (fname : String) : List String × List String :=
  if pyEndsWith fname ".pyx" then
    let bd := st.1
    let bd := if listHas interps "python" then pySetAdd bd "cython" else bd
    let bd := if listHas interps "python3" then pySetAdd bd "cython3" else bd
    (bd, pyxCleanStep relRoot files st.2 fname)
  else st

/-- Processing of one os.walk entry: when any file has a compiled
extension suffix, binary_arch becomes any and every Cython file in the
directory is examined. -/
def walkEntryStep (dpath : String) (interps : List String)
    (st : String × List String × List String) (entry : String × List String) :
    String × List String × List String :=
  if hasCExt entry.2 then
    let inner := entry.2.foldl (pyxStep (pyReplace entry.1 dpath ".") interps entry.2) (st.2.1, st.2.2)
    ("any", inner.1, inner.2)
  else st

/-- The tree walk of update_ctx: binary_arch starts as all and the walk
folds over the visited directories; bd0 and cf0 are the build_depends and
clean_files sets the context already holds. -/
def update_ctx_walk (dpath : String) (interps : List String)
    (entries : List (String × List String)) (bd0 cf0 : List String) :
    String × List String × List String :=
  entries.foldl (walkEntryStep dpath interps) ("all", bd0, cf0)

/-! ### The Idempotence Gate (render_template, lines 174 to 186)

The decorator around the template generators control, rules, copyright and
watch: f is the wrapped context-augmentation logic and render models the
jinja2 template applied to the augmented context. -/

/-- The wrapper produced by the render_template decorator, returning the
filesystem and the shared context after the call. -/
def render_template (name : String) (f : Ctx → Ctx) (render : Ctx → String)
    (dpath : String) (fs : FS) (ctx : Ctx) : FS × Ctx :=
  let fpath := pyJoin (pyJoin dpath "debian") name
  if fsExists fs fpath then (fs, ctx)
  else
    let ctx2 := f ctx
    (fsWrite fs fpath (render ctx2), ctx2)

/-! ### The description reflow and the requires branch of control
(lines 190 to 223) -/

/-- One iteration of the description loop of control.  The state carries
the code_line flag, the current value of the Python loop variable line,
and the accumulated desc list. -/
def descStep (st : Bool × String × List String) (line : String) : Bool × String × List String :=
  let code_line := st.1
  let acc := st.2.2
  if pyIsBlank line then (code_line, line, acc ++ [" ."])
  else
    let cond := pyStartsWith line "* " || pyStartsWith line ">>> " || pyStartsWith line "... " ||
      pyStartsWith line ".. " || pyStartsWith line "$ " || code_line || line = "..."
    let code_line2 :=
      if cond then (if pyStartsWith line ">>> " then true else if code_line then false else code_line)
      else code_line
    let line1 := if cond then " " ++ line else line
    let line2 := tabExpand line1
    (code_line2, line2, acc ++ [" " ++ line2])

/-- The whole description loop, folding over description.split of a
newline. -/
def descFold (description : String) : Bool × String × List String :=
  ((splitNL description.data).map (fun l => String.mk l)).foldl descStep (false, "", [])

/-- The desc list built by control. -/
def descLines (description : String) : List String :=
  (descFold description).2.2

/-- The value the Python variable line holds after the description loop;
the requires branch of control reads this stale variable. -/
def lastDescLine (description : String) : String :=
  (descFold description).2.1

/-- The requires branch of control (lines 215 to 223), exactly as coded:
although it is guarded by requires being present in the context, its body
never reads the requires entries and instead calls the dependency guesser
on the stale loop variable line left over from the description reflow,
once per active interpreter.  The guess oracle returns none for a raised
parse error (logged and skipped) and some none for a falsy result. -/
def control_requires_deps (requires : List String) (interps : List String)
    (interpMap : String → String) (guess : String → String → Option (Option String))
    (description : String) (bd : List String) : List String :=
  interps.foldl
    (fun bd impl =>
      match guess (interpMap impl) (lastDescLine description) with
      | some (some d) => pySetAdd bd d
      | _ => bd)
    bd

/-! ### The changelog generator (lines 282 to 313) -/

/-- What the changelog generator decides to do. -/
inductive ChangelogStep : Type where
  | noop : ChangelogStep
  | runDch (distribution version message : String) : ChangelogStep
  | writeNew : ChangelogStep
  deriving DecidableEq

/-- The decision of changelog: with an existing changelog whose first line
contains the target version or the marker UNRELEASED it returns without
doing anything; otherwise it calls the external dch helper; with no
changelog it synthesizes a fresh first entry. -/
def changelogGen (version debianRevision distribution message : String)
    (existing : Option String) : ChangelogStep :=
  match existing with
  | some content =>
    let line := pyReadline content
    if pyIn version line || pyIn "UNRELEASED" line then ChangelogStep.noop
    else ChangelogStep.runDch distribution (version ++ "-" ++ debianRevision) message
  | none => ChangelogStep.writeNew

/-- The changelog generator together with its effect on the changelog
file; the contents produced by the external dch helper and by the
Changelog library are opaque parameters. -/
def changelogRun (version debianRevision distribution message : String)
    (existing : Option String) (dchContent newEntry : String) : ChangelogStep × Option String :=
  match changelogGen version debianRevision distribution message existing with
  | ChangelogStep.noop => (ChangelogStep.noop, existing)
  | ChangelogStep.runDch d v m => (ChangelogStep.runDch d v m, some dchContent)
  | ChangelogStep.writeNew => (ChangelogStep.writeNew, some newEntry)

/-! ### The submission notice generator (itp_mail, lines 352 to 358) -/

/-- The output path of itp_mail: a join of the root context entry (a
KeyError when absent, as in Python) with the formatted mail file name. -/
def itpMailPath (ctx : Ctx) : Except String String :=
  match assocFind ctx "root" with
  | none => Except.error "KeyError: root"
  | some root =>
    match pyFormat ctx "{src_name}_{version}-{debian_revision}.mail" with
    | Except.error e => Except.error e
    | Except.ok n => Except.ok (pyJoin root n)

/-- itp_mail: skip when the notice file exists, render it otherwise; the
rendered template text is an opaque parameter. -/
def itp_mail (ctx : Ctx) (fs : FS) (render : String) : Except String FS :=
  match itpMailPath ctx with
  | Except.error e => Except.error e
  | Except.ok fpath => if fsExists fs fpath then Except.ok fs else Except.ok (fsWrite fs fpath render)

/-! ### The clean generator (lines 361 to 377)

The debian/clean file content is reasoned about as a character list; the
accumulated clean_files set is a duplicate-free list. -/

/-- The content of an optional file, an absent file reading as empty. -/
def contentOf (file : Option (List Char)) : List Char :=
  file.getD []

/-- One run of clean: read the stripped lines of an existing debian/clean
file, keep the clean_files entries that are not already present, and
append each new entry as a newline followed by the entry; when nothing is
new the file is not opened for appending. -/
def clean (file : Option (List Char)) (cleanFiles : List (List Char)) : Option (List Char) :=
  let old : List (List Char) :=
    match file with
    | none => []
    | some s => (pyFileLines s).map pyStripCore
  let newEntries := cleanFiles.filter (fun i => !(listHas old i))
  if newEntries.isEmpty then file
  else some (contentOf file ++ newEntries.flatMap (fun fn => '\n' :: fn))

/-- The number of physical lines of the persisted clean file that equal a
given path. -/
def lineCount (p : List Char) (file : Option (List Char)) : Nat :=
  (pyFileLines (contentOf file)).count p

/-- Test oracle for the dependency guesser: resolves the requirement
numpy and returns a falsy result on everything else. -/
def guessOracle : String → String → Option (Option String) :=
  fun _ s => if s = "numpy" then some (some "python3-numpy") else some none

/-! ### Helper lemmas -/

/-- The gate of the render_template wrapper: an existing target makes the
wrapper a no-op on the filesystem and the context. -/
theorem render_template_exists_eq (name : String) (f : Ctx → Ctx) (render : Ctx → String)
    (dpath : String) (fs : FS) (ctx : Ctx)
    (h : fsExists fs (pyJoin (pyJoin dpath "debian") name) = true) :
    render_template name f render dpath fs ctx = (fs, ctx) := by
  unfold render_template
  simp [h]

/-- An existing notice file makes itp_mail a no-op. -/
theorem itp_mail_exists_eq (ctx : Ctx) (fs : FS) (render p : String)
    (h1 : itpMailPath ctx = Except.ok p) (h2 : fsExists fs p = true) :
    itp_mail ctx fs render = Except.ok fs := by
  unfold itp_mail
  rw [h1]
  simp [h2]

/-- Appending to debian/clean preserves the previous content as a prefix
of the new content. -/
theorem clean_preserves_content (s : List Char) (cs : List (List Char)) :
    ∃ t, contentOf (clean (some s) cs) = s ++ t := by
  unfold clean
  dsimp only
  split
  · exact ⟨[], by simp [contentOf]⟩
  · exact ⟨_, rfl⟩

/-- Concatenating strings concatenates their character lists. -/
theorem str_data_append (a b : String) : (a ++ b).data = a.data ++ b.data := by
  cases a
  cases b
  rfl

/-- Tab expansion commutes with a prefixed space. -/
theorem tabCore_cons_space (l : List Char) : tabCore (' ' :: l) = ' ' :: tabCore l := by
  simp [tabCore]

/-- Tab expansion of a space-prefixed line is the space-prefixed tab
expansion of the line. -/
theorem tabExpand_space (s : String) : tabExpand (" " ++ s) = " " ++ tabExpand s := by
  unfold tabExpand
  have h1 : (" " ++ s).data = ' ' :: s.data := by
    rw [str_data_append]
    rfl
  rw [h1, tabCore_cons_space]
  rfl

/-- A line starting with an asterisk marker decomposes accordingly. -/
theorem pyStartsWith_star (line : String) (h : pyStartsWith line "* " = true) :
    ∃ t, line.data = '*' :: ' ' :: t := by
  unfold pyStartsWith at h
  have hd : ("* ").data = ['*', ' '] := rfl
  rw [hd] at h
  cases hl : line.data with
  | nil => rw [hl] at h; simp [List.isPrefixOf] at h
  | cons c l2 =>
    rw [hl] at h
    cases l2 with
    | nil => simp [List.isPrefixOf] at h
    | cons c2 l3 =>
      simp [List.isPrefixOf] at h
      obtain ⟨hc, hc2⟩ := h
      exact ⟨l3, by rw [hc, hc2]⟩

/-- A line starting with the asterisk marker does not start with the
interpreter prompt marker. -/
theorem pyStartsWith_star_not_prompt (line : String) (h : pyStartsWith line "* " = true) :
    pyStartsWith line ">>> " = false := by
  obtain ⟨t, hd⟩ := pyStartsWith_star line h
  unfold pyStartsWith
  rw [hd]
  simp [List.isPrefixOf]

/-- Lookup distributes over append: the left dict wins. -/
theorem assocFind_append (m1 m2 : List (String × String)) (k : String) :
    assocFind (m1 ++ m2) k =
      match assocFind m1 k with
      | some v => some v
      | none => assocFind m2 k := by
  induction m1 with
  | nil => rfl
  | cons kv r ih =>
    obtain ⟨k2, v⟩ := kv
    by_cases h : k2 = k <;> simp [assocFind, h, ih]

/-- A dict without the key looks the key up as none. -/
theorem hasKey_false_find (m : List (String × String)) (k : String)
    (h : hasKey m k = false) : assocFind m k = none := by
  induction m with
  | nil => rfl
  | cons kv r ih =>
    obtain ⟨k2, v⟩ := kv
    by_cases hk : k2 = k
    · simp [hasKey, hk] at h
    · simp [hasKey, hk] at h
      simp [assocFind, hk, ih h]

/-- A dict with the key looks the key up as some value. -/
theorem hasKey_true_find (m : List (String × String)) (k : String)
    (h : hasKey m k = true) : ∃ w, assocFind m k = some w := by
  induction m with
  | nil => simp [hasKey] at h
  | cons kv r ih =>
    obtain ⟨k2, v⟩ := kv
    by_cases hk : k2 = k
    · exact ⟨v, by simp [assocFind, hk]⟩
    · simp [hasKey, hk] at h
      obtain ⟨w, hw⟩ := ih h
      exact ⟨w, by simp [assocFind, hk, hw]⟩

/-- The binding rewrite on a binding that carries the assigned key. -/
theorem replaceKey_pos (k v k2 w : String) (h : k2 = k) :
    replaceKey k v (k2, w) = (k, v) := by
  simp [replaceKey, h]

/-- The binding rewrite on a binding that carries another key. -/
theorem replaceKey_neg (k v k2 w : String) (h : ¬ k2 = k) :
    replaceKey k v (k2, w) = (k2, w) := by
  simp [replaceKey, h]

/-- Looking up the replaced key in the in-place replacement map. -/
theorem assocFind_replace_self (m : List (String × String)) (k v : String) :
    assocFind (m.map (replaceKey k v)) k = (assocFind m k).map (fun _ => v) := by
  induction m with
  | nil => rfl
  | cons kv r ih =>
    obtain ⟨k2, w⟩ := kv
    rw [List.map_cons]
    by_cases hk : k2 = k
    · rw [replaceKey_pos k v k2 w hk]
      subst hk
      simp [assocFind, ih]
    · rw [replaceKey_neg k v k2 w hk]
      simp [assocFind, hk, ih]

/-- Looking up another key in the in-place replacement map. -/
theorem assocFind_replace_ne (m : List (String × String)) (k v k2 : String)
    (h : k2 ≠ k) :
    assocFind (m.map (replaceKey k v)) k2 = assocFind m k2 := by
  induction m with
  | nil => rfl
  | cons kv r ih =>
    obtain ⟨k3, w⟩ := kv
    rw [List.map_cons]
    by_cases hk : k3 = k
    · rw [replaceKey_pos k v k3 w hk]
      have hne : ¬ k = k2 := fun he => h he.symm
      have hne3 : ¬ k3 = k2 := fun he => h (hk.symm.trans he).symm
      simp [assocFind, hne, hne3, ih]
    · rw [replaceKey_neg k v k3 w hk]
      by_cases hk2 : k3 = k2 <;> simp [assocFind, hk2, ih]

/-- Item assignment makes the assigned key look up as the new value. -/
theorem assocFind_setKey_self (m : List (String × String)) (k v : String) :
    assocFind (setKey m k v) k = some v := by
  cases h : hasKey m k with
  | true =>
    obtain ⟨w, hw⟩ := hasKey_true_find m k h
    simp [setKey, h, assocFind_replace_self, hw]
  | false =>
    simp only [setKey, h, Bool.false_eq_true, if_false]
    rw [assocFind_append, hasKey_false_find m k h]
    simp [assocFind]

/-- Item assignment leaves the lookup of other keys unchanged. -/
theorem assocFind_setKey_ne (m : List (String × String)) (k v k2 : String)
    (h : k2 ≠ k) : assocFind (setKey m k v) k2 = assocFind m k2 := by
  cases hk : hasKey m k with
  | true =>
    simp only [setKey, hk, if_true]
    exact assocFind_replace_ne m k v k2 h
  | false =>
    simp only [setKey, hk, Bool.false_eq_true, if_false]
    rw [assocFind_append]
    have hne : ¬ k = k2 := fun he => h he.symm
    cases hf : assocFind m k2 <;> simp [assocFind, hne]

/-- dict.update with a dict that nowhere binds the key leaves the lookup
of that key unchanged. -/
theorem assocFind_ctxUpdate_not_bound (k : String) :
    ∀ (d c : List (String × String)), (∀ p ∈ d, p.1 ≠ k) →
      assocFind (ctxUpdate c d) k = assocFind c k := by
  intro d
  induction d with
  | nil => intro c _; rfl
  | cons kv rest ih =>
    intro c h
    obtain ⟨k1, w⟩ := kv
    have hstep : ctxUpdate c ((k1, w) :: rest) = ctxUpdate (setKey c k1 w) rest := rfl
    rw [hstep, ih (setKey c k1 w) (fun p hp => h p (List.mem_cons_of_mem _ hp))]
    exact assocFind_setKey_ne c k1 w k (fun he => h (k1, w) (List.mem_cons_self _ _) (he.symm ▸ rfl))

/-- dict.update with a duplicate-free dict that binds the key makes the
key look up as the bound value. -/
theorem assocFind_ctxUpdate_bound (k v : String) :
    ∀ (d c : List (String × String)), (d.map Prod.fst).Nodup →
      assocFind d k = some v → assocFind (ctxUpdate c d) k = some v := by
  intro d
  induction d with
  | nil => intro c _ hv; simp [assocFind] at hv
  | cons kv rest ih =>
    intro c hnd hv
    obtain ⟨k1, w⟩ := kv
    have hstep : ctxUpdate c ((k1, w) :: rest) = ctxUpdate (setKey c k1 w) rest := rfl
    rw [hstep]
    have hnd2 := hnd
    rw [List.map_cons] at hnd2
    obtain ⟨h1, h2⟩ := List.nodup_cons.mp hnd2
    by_cases hk : k1 = k
    · have hw : w = v := by simpa [assocFind, hk] using hv
      subst hk hw
      have hrest : ∀ p ∈ rest, p.1 ≠ k1 := by
        intro p hp he
        have hm : p.1 ∈ rest.map Prod.fst := List.mem_map_of_mem Prod.fst hp
        rw [he] at hm
        exact h1 hm
      rw [assocFind_ctxUpdate_not_bound k1 rest (setKey c k1 w) hrest]
      exact assocFind_setKey_self c k1 w
    · have hv2 : assocFind rest k = some v := by simpa [assocFind, hk] using hv
      exact ih (setKey c k1 w) h2 hv2

/-- The interpolation pass only rewrites the keys it is given: the lookup
of any other key survives a successful pass unchanged. -/
theorem fmtFold_preserves (K : String) :
    ∀ (keys : List String) (c final : Ctx), fmtFold keys c = Except.ok final →
      (∀ k2 ∈ keys, k2 ≠ K) → assocFind final K = assocFind c K := by
  intro keys
  induction keys with
  | nil =>
    intro c final h _
    cases h
    rfl
  | cons key rest ih =>
    intro c final h hne
    unfold fmtFold at h
    split at h
    · exact ih c final h (fun k2 hk2 => hne k2 (List.mem_cons_of_mem _ hk2))
    · rename_i v hf
      split at h
      · cases h
      · rename_i v2 hp
        rw [ih (setKey c key v2) final h (fun k2 hk2 => hne k2 (List.mem_cons_of_mem _ hk2))]
        exact assocFind_setKey_ne c key v2 K (Ne.symm (hne key (List.mem_cons_self _ _)))

/-! ### C1 -/

/-- C1: for every template-rendering generator wrapped by the
render_template decorator (control, rules, copyright, watch), if the
target file debian/(generator name) already exists, the wrapper returns
with the filesystem unchanged (no file written) and the shared context
unchanged (no key modified). -/
theorem render_template_gate (name : String) (f : Ctx → Ctx) (render : Ctx → String)
    (dpath : String) (fs : FS) (ctx : Ctx)
    (h : fsExists fs (pyJoin (pyJoin dpath "debian") name) = true) :
    render_template name f render dpath fs ctx = (fs, ctx) :=
  render_template_exists_eq name f render dpath fs ctx h

/-- Witness for C1: a filesystem already holding debian/control. -/
theorem render_template_gate_witness :
    fsExists [("/s/debian/control", "X")] (pyJoin (pyJoin "/s" "debian") "control") = true
    ∧ render_template "control" id (fun _ => "tpl") "/s" [("/s/debian/control", "X")]
        [("name", "foo")] = ([("/s/debian/control", "X")], [("name", "foo")]) :=
  ⟨by decide,
   render_template_gate "control" id (fun _ => "tpl") "/s" [("/s/debian/control", "X")]
     [("name", "foo")] (by decide)⟩

/-! ### C2 -/

/-- C2 counterexample: the clean generator is among the listed output
artifacts, yet a run whose clean_files set holds a genuinely new entry
appends to an existing debian/clean file, so the file content is not byte
identical after the run. -/
theorem non_clobber_counterexample :
    clean (some ['x']) [['y']] = some ['x', '\n', 'y'] ∧ (['x', '\n', 'y'] : List Char) ≠ ['x'] :=
  ⟨by decide, by decide⟩

/-- C2 amended: the non-clobber guarantee holds for the gated template
artifacts (control, rules, copyright, watch) and for the submission
notice mail, while the clean list keeps its previous content only as a
prefix of the new content (the docs and examples list files are rewritten
unconditionally, and a pre-existing changelog is handed to the external
helper unless its first line short-circuits). -/
theorem non_clobber_amended :
    (∀ (name : String) (f : Ctx → Ctx) (render : Ctx → String) (dpath : String) (fs : FS) (ctx : Ctx),
        fsExists fs (pyJoin (pyJoin dpath "debian") name) = true →
        render_template name f render dpath fs ctx = (fs, ctx))
    ∧ (∀ (ctx : Ctx) (fs : FS) (render p : String),
        itpMailPath ctx = Except.ok p → fsExists fs p = true →
        itp_mail ctx fs render = Except.ok fs)
    ∧ (∀ (s : List Char) (cs : List (List Char)), ∃ t, contentOf (clean (some s) cs) = s ++ t) :=
  ⟨fun name f render dpath fs ctx h => render_template_exists_eq name f render dpath fs ctx h,
   fun ctx fs render p h1 h2 => itp_mail_exists_eq ctx fs render p h1 h2,
   fun s cs => clean_preserves_content s cs⟩

/-- Witness for C2: a filesystem already holding debian/watch. -/
theorem non_clobber_amended_witness :
    fsExists [("/s/debian/watch", "W")] (pyJoin (pyJoin "/s" "debian") "watch") = true
    ∧ render_template "watch" id (fun _ => "t") "/s" [("/s/debian/watch", "W")] []
        = ([("/s/debian/watch", "W")], []) :=
  ⟨by decide, non_clobber_amended.1 "watch" id (fun _ => "t") "/s" [("/s/debian/watch", "W")] [] (by decide)⟩

/-! ### C3 -/

/-- C3: with an explicit requires field present, the control generator
never parses the requires entries: it feeds the stale variable line, left
over from the description reflow loop, to the dependency guesser once per
interpreter.  At the concrete input below the claim predicts that the
guessable entry numpy yields the build dependency python3-numpy, but the
code produces no dependency at all, and its output does not depend on the
requires entries. -/
theorem control_requires_stale_line :
    control_requires_deps ["numpy"] ["python3"] id guessOracle "numpy is great" [] = []
    ∧ guessOracle "python3" "numpy" = some (some "python3-numpy")
    ∧ lastDescLine "numpy is great" = "numpy is great"
    ∧ (∀ r1 r2 : List String,
        control_requires_deps r1 ["python3"] id guessOracle "numpy is great" [] =
          control_requires_deps r2 ["python3"] id guessOracle "numpy is great" []) :=
  ⟨by decide, by decide, by decide, fun _ _ => rfl⟩

/-! ### C4 -/

/-- C4 counterexample: for the interpolated key vcs_src the value left in
the context after the Layered Override Resolver finishes is not the per
package override value itself but its interpolation; with a profile value
http://x and an override value of a name placeholder, the resolver ends
with the interpolated package name instead of the override value. -/
theorem override_precedence_counterexample :
    resolveLayers [("name", "foo")] none (some "p") none (some [("vcs_src", "http://x")])
        (some [("vcs_src", "{name}")])
      = Except.ok [("name", "foo"), ("vcs_src", "foo")]
    ∧ assocFind [("name", "foo"), ("vcs_src", "foo")] "vcs_src" = some "foo"
    ∧ ("foo" : String) ≠ "{name}" :=
  ⟨by rfl, by decide, by decide⟩

/-- C4 amended: for every key K outside the three interpolated keys
vcs_src, vcs_browser and uploaders, if the per-package override document
(a duplicate-free dict) binds K, then after the Layered Override Resolver
finishes the context holds exactly the override value at K, whatever
combination of inline, explicit-profile and named-profile layers is
present; for the three interpolated keys the override value still
supersedes the profile value but is then subjected to the single-pass
placeholder interpolation. -/
theorem override_precedence_amended (ctx0 : Ctx) (inlineCfg : Option Ctx) (profile : Option String)
    (explicitDoc namedDoc : Option Ctx) (ov : Ctx) (K v : String) (final : Ctx)
    (hnd : (ov.map Prod.fst).Nodup) (hv : assocFind ov K = some v)
    (hK1 : K ≠ "vcs_src") (hK2 : K ≠ "vcs_browser") (hK3 : K ≠ "uploaders")
    (hok : resolveLayers ctx0 inlineCfg profile explicitDoc namedDoc (some ov) = Except.ok final) :
    assocFind final K = some v := by
  unfold resolveLayers at hok
  have hpre := fmtFold_preserves K _ _ _ hok (by
    intro k2 hk2
    simp only [List.mem_cons, List.not_mem_nil, or_false] at hk2
    rcases hk2 with h | h | h
    · rw [h]; exact Ne.symm hK1
    · rw [h]; exact Ne.symm hK2
    · rw [h]; exact Ne.symm hK3)
  rw [hpre]
  exact assocFind_ctxUpdate_bound K v ov _ hnd hv

/-- Witness for C4: a named profile and a per-package override both bind
the key homepage; the resolver keeps the override value. -/
theorem override_precedence_amended_witness :
    (assocFind [("homepage", "b")] "homepage" = some "b"
      ∧ (([("homepage", "b")] : Ctx).map Prod.fst).Nodup
      ∧ resolveLayers [("name", "foo")] none (some "p") none (some [("homepage", "a")])
          (some [("homepage", "b")]) = Except.ok [("name", "foo"), ("homepage", "b")])
    ∧ assocFind [("name", "foo"), ("homepage", "b")] "homepage" = some "b" :=
  ⟨⟨by decide, by decide, by rfl⟩,
   override_precedence_amended [("name", "foo")] none (some "p") none (some [("homepage", "a")])
     [("homepage", "b")] "homepage" "b" [("name", "foo"), ("homepage", "b")]
     (by decide) (by decide) (by decide) (by decide) (by decide) (by rfl)⟩

/-! ### Lemmas about the Context Builder tree walk -/

/-- Membership distributes over list append. -/
theorem listHas_append {α : Type} [DecidableEq α] (a b : List α) (x : α) :
    listHas (a ++ b) x = (listHas a x || listHas b x) := by
  induction a with
  | nil => rfl
  | cons c r ih => by_cases hc : c = x <;> simp [listHas, hc, ih]

/-- set.add preserves membership. -/
theorem listHas_pySetAdd_of {α : Type} [DecidableEq α] (s : List α) (x y : α)
    (h : listHas s x = true) : listHas (pySetAdd s y) x = true := by
  unfold pySetAdd
  cases hy : listHas s y
  · simp [listHas_append, h]
  · simpa using h

/-- set.add makes the added element a member. -/
theorem listHas_pySetAdd_self {α : Type} [DecidableEq α] (s : List α) (x : α) :
    listHas (pySetAdd s x) x = true := by
  unfold pySetAdd
  cases hy : listHas s x
  · simp [listHas_append, listHas]
  · simpa using hy

section WalkLemmas

variable (r : String) (i files : List String)

/-- The extension loop of the Cython sibling scan preserves clean_files
membership. -/
theorem cleanFold_mono (fname x : String) :
    ∀ (exts : List String) (cf : List String), listHas cf x = true →
      listHas (exts.foldl
        (fun cf ext =>
          if listHas files (sibName fname ext) then pySetAdd cf (pyJoin r (sibName fname ext))
          else cf) cf) x = true := by
  intro exts
  induction exts with
  | nil => intro cf h; exact h
  | cons e rest ih =>
    intro cf h
    rw [List.foldl_cons]
    apply ih
    cases he : listHas files (sibName fname e) <;> simp [he, listHas_pySetAdd_of, h]

/-- The extension loop records a present compiled sibling. -/
theorem cleanFold_inserts (fname ext x : String)
    (hx : x = pyJoin r (sibName fname ext)) (hsib : listHas files (sibName fname ext) = true) :
    ∀ (exts : List String) (cf : List String), ext ∈ exts →
      listHas (exts.foldl
        (fun cf ext =>
          if listHas files (sibName fname ext) then pySetAdd cf (pyJoin r (sibName fname ext))
          else cf) cf) x = true := by
  intro exts
  induction exts with
  | nil => intro cf h; cases h
  | cons e rest ih =>
    intro cf hmem
    rw [List.foldl_cons]
    rcases List.mem_cons.mp hmem with he | hmem2
    · subst he
      rw [hsib]
      simp only [if_true]
      apply cleanFold_mono r files fname x rest
      rw [hx]
      exact listHas_pySetAdd_self cf _
    · exact ih _ hmem2

/-- pyxCleanStep preserves clean_files membership. -/
theorem pyxCleanStep_mono (cf : List String) (fname x : String)
    (h : listHas cf x = true) : listHas (pyxCleanStep r files cf fname) x = true :=
  cleanFold_mono r files fname x ["c", "cpp"] cf h

/-- pyxCleanStep records a present compiled sibling. -/
theorem pyxCleanStep_inserts (cf : List String) (fname ext : String)
    (hext : ext = "c" ∨ ext = "cpp") (hsib : listHas files (sibName fname ext) = true) :
    listHas (pyxCleanStep r files cf fname) (pyJoin r (sibName fname ext)) = true := by
  apply cleanFold_inserts r files fname ext _ rfl hsib ["c", "cpp"] cf
  rcases hext with h | h <;> rw [h] <;> simp

/-- pyxCleanStep with no present sibling leaves clean_files unchanged. -/
theorem pyxCleanStep_id (cf : List String) (fname : String)
    (hc : listHas files (sibName fname "c") = false)
    (hcpp : listHas files (sibName fname "cpp") = false) :
    pyxCleanStep r files cf fname = cf := by
  simp [pyxCleanStep, hc, hcpp]

/-- pyxStep preserves clean_files membership. -/
theorem pyxStep_cf_mono (st : List String × List String) (fname x : String)
    (h : listHas st.2 x = true) : listHas (pyxStep r i files st fname).2 x = true := by
  cases hp : pyEndsWith fname ".pyx"
  · simpa [pyxStep, hp] using h
  · simp only [pyxStep, hp, if_true]
    exact pyxCleanStep_mono r files st.2 fname x h

/-- pyxStep preserves build_depends membership. -/
theorem pyxStep_bd_mono (st : List String × List String) (fname x : String)
    (h : listHas st.1 x = true) : listHas (pyxStep r i files st fname).1 x = true := by
  cases hp : pyEndsWith fname ".pyx"
  · simpa [pyxStep, hp] using h
  · cases h2 : listHas i "python" <;> cases h3 : listHas i "python3" <;>
      simp only [pyxStep, hp, h2, h3, if_true, Bool.false_eq_true, if_false] <;>
      simp [listHas_pySetAdd_of, h]

/-- The file loop of one walk entry preserves clean_files membership. -/
theorem pyxFold_cf_mono (x : String) :
    ∀ (fl : List String) (st : List String × List String), listHas st.2 x = true →
      listHas ((fl.foldl (pyxStep r i files) st)).2 x = true := by
  intro fl
  induction fl with
  | nil => intro st h; exact h
  | cons g rest ih =>
    intro st h
    rw [List.foldl_cons]
    exact ih _ (pyxStep_cf_mono r i files st g x h)

/-- The file loop of one walk entry preserves build_depends membership. -/
theorem pyxFold_bd_mono (x : String) :
    ∀ (fl : List String) (st : List String × List String), listHas st.1 x = true →
      listHas ((fl.foldl (pyxStep r i files) st)).1 x = true := by
  intro fl
  induction fl with
  | nil => intro st h; exact h
  | cons g rest ih =>
    intro st h
    rw [List.foldl_cons]
    exact ih _ (pyxStep_bd_mono r i files st g x h)

/-- The file loop records the compiled sibling of a processed Cython
file. -/
theorem pyxFold_cf_inserts (fname ext : String)
    (hpyx : pyEndsWith fname ".pyx" = true) (hext : ext = "c" ∨ ext = "cpp")
    (hsib : listHas files (sibName fname ext) = true) :
    ∀ (fl : List String) (st : List String × List String), fname ∈ fl →
      listHas ((fl.foldl (pyxStep r i files) st)).2 (pyJoin r (sibName fname ext)) = true := by
  intro fl
  induction fl with
  | nil => intro st h; cases h
  | cons g rest ih =>
    intro st hmem
    rw [List.foldl_cons]
    rcases List.mem_cons.mp hmem with he | hmem2
    · subst he
      apply pyxFold_cf_mono r i files _ rest
      simp only [pyxStep, hpyx, if_true]
      exact pyxCleanStep_inserts r files st.2 fname ext hext hsib
    · exact ih _ hmem2

/-- The file loop adds the python3 Cython dependency once it meets a
Cython file. -/
theorem pyxFold_bd_cython3 (fname : String)
    (hpyx : pyEndsWith fname ".pyx" = true) (hi : listHas i "python3" = true) :
    ∀ (fl : List String) (st : List String × List String), fname ∈ fl →
      listHas ((fl.foldl (pyxStep r i files) st)).1 "cython3" = true := by
  intro fl
  induction fl with
  | nil => intro st h; cases h
  | cons g rest ih =>
    intro st hmem
    rw [List.foldl_cons]
    rcases List.mem_cons.mp hmem with he | hmem2
    · subst he
      apply pyxFold_bd_mono r i files _ rest
      cases h2 : listHas i "python" <;>
        simp only [pyxStep, hpyx, h2, hi, if_true, Bool.false_eq_true, if_false] <;>
        exact listHas_pySetAdd_self _ _
    · exact ih _ hmem2

/-- The file loop adds the python2 Cython dependency once it meets a
Cython file. -/
theorem pyxFold_bd_cython2 (fname : String)
    (hpyx : pyEndsWith fname ".pyx" = true) (hi : listHas i "python" = true) :
    ∀ (fl : List String) (st : List String × List String), fname ∈ fl →
      listHas ((fl.foldl (pyxStep r i files) st)).1 "cython" = true := by
  intro fl
  induction fl with
  | nil => intro st h; cases h
  | cons g rest ih =>
    intro st hmem
    rw [List.foldl_cons]
    rcases List.mem_cons.mp hmem with he | hmem2
    · subst he
      apply pyxFold_bd_mono r i files _ rest
      cases h3 : listHas i "python3" <;>
        simp only [pyxStep, hpyx, h3, hi, if_true, Bool.false_eq_true, if_false
          ] <;> first
        | exact listHas_pySetAdd_self _ _
        | exact listHas_pySetAdd_of _ _ _ (listHas_pySetAdd_self _ _)
    · exact ih _ hmem2

/-- The file loop leaves clean_files unchanged when no Cython file in it
has a present compiled sibling. -/
theorem pyxFold_cf_id :
    ∀ (fl : List String) (st : List String × List String),
      (∀ g ∈ fl, pyEndsWith g ".pyx" = true →
        listHas files (sibName g "c") = false ∧ listHas files (sibName g "cpp") = false) →
      ((fl.foldl (pyxStep r i files) st)).2 = st.2 := by
  intro fl
  induction fl with
  | nil => intro st _; rfl
  | cons g rest ih =>
    intro st h
    rw [List.foldl_cons]
    rw [ih _ (fun g2 hg2 => h g2 (List.mem_cons_of_mem _ hg2))]
    cases hp : pyEndsWith g ".pyx"
    · simp [pyxStep, hp]
    · obtain ⟨hc, hcpp⟩ := h g (List.mem_cons_self _ _) hp
      simp only [pyxStep, hp, if_true]
      exact pyxCleanStep_id r files st.2 g hc hcpp

end WalkLemmas

/-- A directory holding a Cython file passes the compiled-extension
test. -/
theorem hasCExt_of_pyx (files : List String) (fname : String)
    (hf : fname ∈ files) (hpyx : pyEndsWith fname ".pyx" = true) :
    hasCExt files = true := by
  unfold hasCExt
  rw [List.any_eq_true]
  exact ⟨fname, hf, by simp [hpyx]⟩

/-- The walk fold preserves clean_files membership. -/
theorem walkFold_cf_mono (d : String) (i : List String) (x : String) :
    ∀ (entries : List (String × List String)) (st : String × List String × List String),
      listHas st.2.2 x = true →
      listHas ((entries.foldl (walkEntryStep d i) st)).2.2 x = true := by
  intro entries
  induction entries with
  | nil => intro st h; exact h
  | cons e rest ih =>
    intro st h
    rw [List.foldl_cons]
    apply ih
    cases hc : hasCExt e.2
    · simpa [walkEntryStep, hc] using h
    · simp only [walkEntryStep, hc, if_true]
      exact pyxFold_cf_mono (pyReplace e.1 d ".") i e.2 x e.2 (st.2.1, st.2.2) h

/-- The walk fold preserves build_depends membership. -/
theorem walkFold_bd_mono (d : String) (i : List String) (x : String) :
    ∀ (entries : List (String × List String)) (st : String × List String × List String),
      listHas st.2.1 x = true →
      listHas ((entries.foldl (walkEntryStep d i) st)).2.1 x = true := by
  intro entries
  induction entries with
  | nil => intro st h; exact h
  | cons e rest ih =>
    intro st h
    rw [List.foldl_cons]
    apply ih
    cases hc : hasCExt e.2
    · simpa [walkEntryStep, hc] using h
    · simp only [walkEntryStep, hc, if_true]
      exact pyxFold_bd_mono (pyReplace e.1 d ".") i e.2 x e.2 (st.2.1, st.2.2) h

/-- The walk fold computes binary_arch as any exactly when a visited
directory holds a compiled-extension source. -/
theorem walk_arch_fold (d : String) (i : List String) :
    ∀ (entries : List (String × List String)) (st : String × List String × List String),
      (entries.foldl (walkEntryStep d i) st).1
        = if entries.any (fun e => hasCExt e.2) then "any" else st.1 := by
  intro entries
  induction entries with
  | nil => intro st; rfl
  | cons e rest ih =>
    intro st
    rw [List.foldl_cons, List.any_cons]
    cases he : hasCExt e.2 with
    | true =>
      have hfst : (walkEntryStep d i st e).1 = "any" := by simp [walkEntryStep, he]
      rw [ih _]
      cases hr : rest.any (fun e => hasCExt e.2) <;> simp [hr, hfst]
    | false =>
      have hstep : walkEntryStep d i st e = st := by simp [walkEntryStep, he]
      rw [ih _, hstep]
      rfl

/-! ### C5 -/

/-- C5: after the Context Builder tree walk, binary_arch equals any when
some visited directory holds a file with suffix .c, .cpp or .pyx, and
equals all when no visited file has such a suffix. -/
theorem binary_arch_detection (dpath : String) (interps : List String)
    (entries : List (String × List String)) (bd0 cf0 : List String) :
    ((entries.any fun e => hasCExt e.2) = true →
      (update_ctx_walk dpath interps entries bd0 cf0).1 = "any")
    ∧ ((entries.any fun e => hasCExt e.2) = false →
      (update_ctx_walk dpath interps entries bd0 cf0).1 = "all") := by
  constructor <;> intro h <;> unfold update_ctx_walk <;>
    rw [walk_arch_fold dpath interps entries _, h] <;> rfl

/-- Witness for C5: a tree with one Cython source is architecture
dependent. -/
theorem binary_arch_detection_witness :
    (([("/s/sub", ["mod.pyx"])] : List (String × List String)).any fun e => hasCExt e.2) = true
    ∧ (update_ctx_walk "/s" ["python3"] [("/s/sub", ["mod.pyx"])] [] []).1 = "any" :=
  ⟨by decide, (binary_arch_detection "/s" ["python3"] [("/s/sub", ["mod.pyx"])] [] []).1 (by decide)⟩

/-- The walk fold records the compiled sibling of a Cython file met in a
visited directory. -/
theorem walkFold_cf_of_entry (d : String) (i : List String) (root : String) (files : List String)
    (fname ext : String) (hpyx : pyEndsWith fname ".pyx" = true)
    (hext : ext = "c" ∨ ext = "cpp") (hsib : listHas files (sibName fname ext) = true)
    (hf : fname ∈ files) :
    ∀ (entries : List (String × List String)) (st : String × List String × List String),
      (root, files) ∈ entries →
      listHas ((entries.foldl (walkEntryStep d i) st)).2.2
        (pyJoin (pyReplace root d ".") (sibName fname ext)) = true := by
  intro entries
  induction entries with
  | nil => intro st h; cases h
  | cons e rest ih =>
    intro st hmem
    rw [List.foldl_cons]
    rcases List.mem_cons.mp hmem with he | hmem2
    · subst he
      apply walkFold_cf_mono d i _ rest
      have hc := hasCExt_of_pyx files fname hf hpyx
      simp only [walkEntryStep, hc, if_true]
      exact pyxFold_cf_inserts (pyReplace root d ".") i files fname ext
        hpyx hext hsib files (st.2.1, st.2.2) hf
    · exact ih _ hmem2

/-- The walk fold leaves clean_files unchanged when no Cython file in any
visited directory has a present compiled sibling. -/
theorem walkFold_cf_id (d : String) (i : List String) :
    ∀ (entries : List (String × List String)) (st : String × List String × List String),
      (∀ root files fname, (root, files) ∈ entries → fname ∈ files →
        pyEndsWith fname ".pyx" = true →
        listHas files (sibName fname "c") = false ∧ listHas files (sibName fname "cpp") = false) →
      ((entries.foldl (walkEntryStep d i) st)).2.2 = st.2.2 := by
  intro entries
  induction entries with
  | nil => intro st _; rfl
  | cons e rest ih =>
    intro st h
    obtain ⟨eroot, efiles⟩ := e
    rw [List.foldl_cons]
    rw [ih _ (fun root files fname hm => h root files fname (List.mem_cons_of_mem _ hm))]
    cases hc : hasCExt efiles
    · simp [walkEntryStep, hc]
    · simp only [walkEntryStep, hc, if_true]
      exact pyxFold_cf_id (pyReplace eroot d ".") i efiles efiles (st.2.1, st.2.2)
        (fun g hg hp => h eroot efiles g (List.mem_cons_self _ _) hg hp)

/-- The walk fold adds the python3 Cython dependency when a Cython file is
met in a visited directory. -/
theorem walkFold_bd_cython3 (d : String) (i : List String) (root : String) (files : List String)
    (fname : String) (hpyx : pyEndsWith fname ".pyx" = true)
    (hi : listHas i "python3" = true) (hf : fname ∈ files) :
    ∀ (entries : List (String × List String)) (st : String × List String × List String),
      (root, files) ∈ entries →
      listHas ((entries.foldl (walkEntryStep d i) st)).2.1 "cython3" = true := by
  intro entries
  induction entries with
  | nil => intro st h; cases h
  | cons e rest ih =>
    intro st hmem
    rw [List.foldl_cons]
    rcases List.mem_cons.mp hmem with he | hmem2
    · subst he
      apply walkFold_bd_mono d i _ rest
      have hc := hasCExt_of_pyx files fname hf hpyx
      simp only [walkEntryStep, hc, if_true]
      exact pyxFold_bd_cython3 (pyReplace root d ".") i files fname hpyx hi files
        (st.2.1, st.2.2) hf
    · exact ih _ hmem2

/-- The walk fold adds the python2 Cython dependency when a Cython file is
met in a visited directory. -/
theorem walkFold_bd_cython2 (d : String) (i : List String) (root : String) (files : List String)
    (fname : String) (hpyx : pyEndsWith fname ".pyx" = true)
    (hi : listHas i "python" = true) (hf : fname ∈ files) :
    ∀ (entries : List (String × List String)) (st : String × List String × List String),
      (root, files) ∈ entries →
      listHas ((entries.foldl (walkEntryStep d i) st)).2.1 "cython" = true := by
  intro entries
  induction entries with
  | nil => intro st h; cases h
  | cons e rest ih =>
    intro st hmem
    rw [List.foldl_cons]
    rcases List.mem_cons.mp hmem with he | hmem2
    · subst he
      apply walkFold_bd_mono d i _ rest
      have hc := hasCExt_of_pyx files fname hf hpyx
      simp only [walkEntryStep, hc, if_true]
      exact pyxFold_bd_cython2 (pyReplace root d ".") i files fname hpyx hi files
        (st.2.1, st.2.2) hf
    · exact ih _ hmem2

/-! ### C6 -/

/-- C6: during the Context Builder tree walk, the compiled sibling of a
Cython file in the same directory is recorded in clean_files under its
path relative to the source root; when no Cython file anywhere in the
walk has a compiled sibling, clean_files is exactly what it was before
the walk; and a Cython file always adds the per-interpreter cython build
dependencies. -/
theorem cython_clean_pairing (dpath : String) (interps : List String)
    (entries : List (String × List String)) (bd0 cf0 : List String) :
    (∀ root files fname ext, (root, files) ∈ entries → fname ∈ files →
        pyEndsWith fname ".pyx" = true → (ext = "c" ∨ ext = "cpp") →
        listHas files (sibName fname ext) = true →
        listHas (update_ctx_walk dpath interps entries bd0 cf0).2.2
          (pyJoin (pyReplace root dpath ".") (sibName fname ext)) = true)
    ∧ ((∀ root files fname, (root, files) ∈ entries → fname ∈ files →
        pyEndsWith fname ".pyx" = true →
        listHas files (sibName fname "c") = false ∧ listHas files (sibName fname "cpp") = false) →
        (update_ctx_walk dpath interps entries bd0 cf0).2.2 = cf0)
    ∧ (∀ root files fname, (root, files) ∈ entries → fname ∈ files →
        pyEndsWith fname ".pyx" = true →
        (listHas interps "python3" = true →
          listHas (update_ctx_walk dpath interps entries bd0 cf0).2.1 "cython3" = true)
        ∧ (listHas interps "python" = true →
          listHas (update_ctx_walk dpath interps entries bd0 cf0).2.1 "cython" = true)) := by
  refine ⟨?_, ?_, ?_⟩
  · intro root files fname ext hmem hf hpyx hext hsib
    exact walkFold_cf_of_entry dpath interps root files fname ext hpyx hext hsib hf
      entries ("all", bd0, cf0) hmem
  · intro hnone
    exact walkFold_cf_id dpath interps entries ("all", bd0, cf0) hnone
  · intro root files fname hmem hf hpyx
    exact ⟨fun hi => walkFold_bd_cython3 dpath interps root files fname hpyx hi hf
        entries ("all", bd0, cf0) hmem,
      fun hi => walkFold_bd_cython2 dpath interps root files fname hpyx hi hf
        entries ("all", bd0, cf0) hmem⟩

/-- Witness for C6: mod.pyx next to mod.c in a subdirectory puts the
relative path of mod.c into clean_files and cython3 into
build_depends. -/
theorem cython_clean_pairing_witness :
    (("/s/p", ["mod.pyx", "mod.c"]) ∈ ([("/s/p", ["mod.pyx", "mod.c"])] : List (String × List String))
      ∧ "mod.pyx" ∈ ["mod.pyx", "mod.c"]
      ∧ pyEndsWith "mod.pyx" ".pyx" = true
      ∧ listHas ["mod.pyx", "mod.c"] (sibName "mod.pyx" "c") = true)
    ∧ listHas (update_ctx_walk "/s" ["python3"] [("/s/p", ["mod.pyx", "mod.c"])] [] []).2.2
        (pyJoin (pyReplace "/s/p" "/s" ".") (sibName "mod.pyx" "c")) = true :=
  ⟨⟨by decide, by decide, by decide, by decide⟩,
   (cython_clean_pairing "/s" ["python3"] [("/s/p", ["mod.pyx", "mod.c"])] [] []).1
     "/s/p" ["mod.pyx", "mod.c"] "mod.pyx" "c" (by decide) (by decide) (by decide)
     (Or.inl rfl) (by decide)⟩

/-! ### C7 -/

/-- C7: when debian/changelog exists and its first line contains the
target version string or the marker UNRELEASED, the changelog generator
performs no dch invocation and leaves the file unchanged. -/
theorem changelog_short_circuit (version debianRevision distribution message c dchContent newEntry : String)
    (h : (pyIn version (pyReadline c) || pyIn "UNRELEASED" (pyReadline c)) = true) :
    changelogRun version debianRevision distribution message (some c) dchContent newEntry
      = (ChangelogStep.noop, some c) := by
  simp [changelogRun, changelogGen, h]

/-- Witness for C7: a changelog whose first line mentions version 1.0. -/
theorem changelog_short_circuit_witness :
    (pyIn "1.0" (pyReadline "foo (1.0-1) unstable; urgency=low\n old entries")
      || pyIn "UNRELEASED" (pyReadline "foo (1.0-1) unstable; urgency=low\n old entries")) = true
    ∧ changelogRun "1.0" "1" "unstable" "msg" (some "foo (1.0-1) unstable; urgency=low\n old entries")
        "dch" "new" = (ChangelogStep.noop, some "foo (1.0-1) unstable; urgency=low\n old entries") :=
  ⟨by decide,
   changelog_short_circuit "1.0" "1" "unstable" "msg" "foo (1.0-1) unstable; urgency=low\n old entries"
     "dch" "new" (by decide)⟩

/-! ### C8 -/

/-- C8: in the description reflow of control, a whitespace-only input
line is rendered as the placeholder line consisting of the continuation
space and a dot, and a line beginning with an asterisk marker is rendered
with exactly one leading space beyond the uniform one-space continuation
prefix that every description line receives (tabs expanded to four
spaces). -/
theorem description_reflow :
    (∀ (st : Bool × String × List String) (line : String), pyIsBlank line = true →
        descStep st line = (st.1, line, st.2.2 ++ [" ."]))
    ∧ (∀ (last : String) (acc : List String) (line : String),
        pyIsBlank line = false → pyStartsWith line "* " = true →
        descStep (false, last, acc) line
          = (false, " " ++ tabExpand line, acc ++ [" " ++ (" " ++ tabExpand line)])) := by
  constructor
  · intro st line hb
    simp [descStep, hb]
  · intro last acc line hnb hs
    have hp := pyStartsWith_star_not_prompt line hs
    simp [descStep, hnb, hs, hp, tabExpand_space]

/-- Witness for C8: the blank line and the bullet line of a concrete
description. -/
theorem description_reflow_witness :
    ((pyIsBlank " " = true ∧ descStep (false, "", []) " " = (false, " ", [" ."]))
    ∧ (pyIsBlank "* hi" = false ∧ pyStartsWith "* hi" "* " = true
        ∧ descStep (false, "", []) "* hi" = (false, " * hi", ["  * hi"]))) :=
  ⟨⟨by decide, by
      have h := description_reflow.1 (false, "", []) " " (by decide)
      rw [h]
      decide⟩,
   ⟨by decide, by decide, by
      have h := description_reflow.2 "" [] "* hi" (by decide) (by decide)
      rw [h]
      decide⟩⟩

/-! ### Lemmas about line splitting and the clean generator -/

/-- Boolean membership agrees with list membership. -/
theorem listHas_iff {α : Type} [DecidableEq α] (l : List α) (x : α) :
    listHas l x = true ↔ x ∈ l := by
  induction l with
  | nil => simp [listHas]
  | cons c r ih =>
    by_cases hc : c = x
    · simp [listHas, hc]
    · have hcx : ¬ x = c := fun he => hc he.symm
      simp [listHas, hc, hcx, ih]

/-- Splitting never yields an empty fragment list. -/
theorem splitNL_ne_nil (l : List Char) : splitNL l ≠ [] := by
  induction l with
  | nil => simp [splitNL]
  | cons c rest ih =>
    by_cases hc : c = '\n'
    · simp [splitNL, hc]
    · cases h : splitNL rest with
      | nil => simp [splitNL, hc, h]
      | cons a as => simp [splitNL, hc, h]

/-- A newline-free list splits into itself. -/
theorem splitNL_no_newline (l : List Char) (h : ('\n') ∉ l) : splitNL l = [l] := by
  induction l with
  | nil => rfl
  | cons c rest ih =>
    have hc : ¬ c = '\n' := fun he => h (he ▸ List.mem_cons_self c rest)
    have hrest : ('\n') ∉ rest := fun hm => h (List.mem_cons_of_mem _ hm)
    simp [splitNL, hc, ih hrest]

/-- Appending a newline and a newline-free tail appends one fragment. -/
theorem splitNL_snoc (s f : List Char) (hf : ('\n') ∉ f) :
    splitNL (s ++ '\n' :: f) = splitNL s ++ [f] := by
  induction s with
  | nil =>
    simp only [List.nil_append]
    simp [splitNL, splitNL_no_newline f hf]
  | cons c s2 ih =>
    by_cases hc : c = '\n'
    · subst hc
      simp [splitNL, ih]
    · have hne := splitNL_ne_nil s2
      cases h2 : splitNL s2 with
      | nil => exact absurd h2 hne
      | cons a as => simp [splitNL, hc, ih, h2]

/-- Appending newline-plus-entry blocks appends the entries as
fragments. -/
theorem splitNL_flat :
    ∀ (fns : List (List Char)) (s : List Char), (∀ f ∈ fns, ('\n') ∉ f) →
      splitNL (s ++ fns.flatMap (fun f => '\n' :: f)) = splitNL s ++ fns := by
  intro fns
  induction fns with
  | nil => intro s _; simp
  | cons f rest ih =>
    intro s h
    have hf : ('\n') ∉ f := h f (List.mem_cons_self _ _)
    have hrest : ∀ g ∈ rest, ('\n') ∉ g := fun g hg => h g (List.mem_cons_of_mem _ hg)
    have hassoc : s ++ (f :: rest).flatMap (fun f => '\n' :: f)
        = (s ++ '\n' :: f) ++ rest.flatMap (fun f => '\n' :: f) := by
      simp [List.flatMap_cons, List.append_assoc]
    rw [hassoc, ih (s ++ '\n' :: f) hrest, splitNL_snoc s f hf, List.append_assoc]
    rfl

/-- A nonempty path occurs among the file lines exactly as often as among
the raw fragments. -/
theorem count_pyFileLines (s : List Char) (P : List Char) (hPne : P ≠ []) :
    (pyFileLines s).count P = (splitNL s).count P := by
  unfold pyFileLines
  by_cases hs : s = []
  · subst hs
    rw [if_pos rfl]
    have : P ∉ [([] : List Char)] := by
      intro hm
      exact hPne (List.mem_singleton.mp hm)
    simp [splitNL, List.count_eq_zero.mpr this]
  · rw [if_neg hs]
    by_cases hlast : (splitNL s).getLast? = some []
    · rw [if_pos hlast]
      have hne := splitNL_ne_nil s
      have hgl : (splitNL s).getLast hne = [] := by
        have := List.getLast?_eq_getLast (splitNL s) hne
        rw [hlast] at this
        exact (Option.some.inj this).symm
      have hdecomp : (splitNL s).dropLast ++ [(splitNL s).getLast hne] = splitNL s :=
        List.dropLast_append_getLast hne
      have hcnt : (splitNL s).count P
          = ((splitNL s).dropLast).count P + ([(splitNL s).getLast hne]).count P := by
        rw [← List.count_append, hdecomp]
      have hzero : ([(splitNL s).getLast hne]).count P = 0 := by
        rw [hgl]
        refine List.count_eq_zero.mpr ?_
        intro hm
        exact hPne (List.mem_singleton.mp hm)
      rw [hcnt, hzero]
      omega
    · rw [if_neg hlast]

/-- A nonempty path that is a raw fragment is one of the file lines. -/
theorem mem_pyFileLines_of_mem (s : List Char) (P : List Char) (hPne : P ≠ [])
    (h : P ∈ splitNL s) : P ∈ pyFileLines s := by
  unfold pyFileLines
  have hs : s ≠ [] := by
    intro he
    subst he
    simp [splitNL] at h
    exact hPne h
  rw [if_neg hs]
  by_cases hlast : (splitNL s).getLast? = some []
  · rw [if_pos hlast]
    have hne := splitNL_ne_nil s
    have hgl : (splitNL s).getLast hne = [] := by
      have := List.getLast?_eq_getLast (splitNL s) hne
      rw [hlast] at this
      exact (Option.some.inj this).symm
    have hdecomp : (splitNL s).dropLast ++ [(splitNL s).getLast hne] = splitNL s :=
      List.dropLast_append_getLast hne
    rw [← hdecomp] at h
    rcases List.mem_append.mp h with h2 | h2
    · exact h2
    · rw [hgl] at h2
      exact absurd (List.mem_singleton.mp h2) hPne
  · rw [if_neg hlast]
    exact h

/-- A duplicate-free list of paths holds any path at most once. -/
theorem count_le_one_of_nodup (l : List (List Char)) (h : l.Nodup) (a : List Char) :
    l.count a ≤ 1 := by
  induction l with
  | nil => simp
  | cons b r ih =>
    obtain ⟨hb, hr⟩ := List.nodup_cons.mp h
    by_cases hab : a = b
    · subst hab
      have hz : r.count a = 0 := List.count_eq_zero.mpr hb
      simp [List.count_cons, hz]
    · simp [List.count_cons, hab, ih hr]

/-- One clean run keeps the number of lines equal to a stripped nonempty
path at most one. -/
theorem clean_count_le (P : List Char) (hP : pyStripCore P = P) (hPne : P ≠ [])
    (file : Option (List Char)) (cs : List (List Char)) (hnd : cs.Nodup)
    (hnl : ∀ x ∈ cs, ('\n') ∉ x)
    (h1 : (splitNL (contentOf file)).count P ≤ 1) :
    (splitNL (contentOf (clean file cs))).count P ≤ 1 := by
  have hcnt_cs : cs.count P ≤ 1 := count_le_one_of_nodup cs hnd P
  cases file with
  | none =>
    unfold clean
    dsimp only
    split
    · exact h1
    · show (splitNL (contentOf (some ([] ++ _)))).count P ≤ 1
      rw [show contentOf (some ([] ++ (cs.filter fun i => !listHas ([] : List (List Char)) i).flatMap
            (fun fn => '\n' :: fn))) = [] ++ (cs.filter fun i => !listHas ([] : List (List Char)) i).flatMap
            (fun fn => '\n' :: fn) from rfl]
      rw [splitNL_flat _ [] (fun f hf => hnl f (List.mem_of_mem_filter hf))]
      rw [List.count_append]
      have hz : (splitNL ([] : List Char)).count P = 0 := by
        refine List.count_eq_zero.mpr ?_
        intro hm
        simp [splitNL] at hm
        exact hPne hm
      rw [hz]
      calc 0 + (cs.filter fun i => !listHas ([] : List (List Char)) i).count P
          ≤ cs.count P := by
            simpa using (List.filter_sublist cs).count_le P
        _ ≤ 1 := hcnt_cs
  | some s =>
    unfold clean
    dsimp only
    split
    · exact h1
    · rw [show contentOf (some (contentOf (some s) ++
            (cs.filter fun i => !listHas ((pyFileLines s).map pyStripCore) i).flatMap
              (fun fn => '\n' :: fn)))
          = s ++ (cs.filter fun i => !listHas ((pyFileLines s).map pyStripCore) i).flatMap
              (fun fn => '\n' :: fn) from rfl]
      rw [splitNL_flat _ s (fun f hf => hnl f (List.mem_of_mem_filter hf))]
      rw [List.count_append]
      by_cases hmem : P ∈ splitNL s
      · have hup : P ∈ pyFileLines s := mem_pyFileLines_of_mem s P hPne hmem
        have hold : P ∈ (pyFileLines s).map pyStripCore := by
          have hm := List.mem_map_of_mem pyStripCore hup
          rwa [hP] at hm
        have hzero : (cs.filter fun i => !listHas ((pyFileLines s).map pyStripCore) i).count P = 0 := by
          refine List.count_eq_zero.mpr ?_
          intro hin
          have hpred := List.of_mem_filter hin
          rw [(listHas_iff _ P).mpr hold] at hpred
          simp at hpred
        rw [hzero]
        have hsame : (splitNL (contentOf (some s))).count P = (splitNL s).count P := rfl
        rw [hsame] at h1
        omega
      · have hzero : (splitNL s).count P = 0 := List.count_eq_zero.mpr hmem
        rw [hzero]
        calc 0 + (cs.filter fun i => !listHas ((pyFileLines s).map pyStripCore) i).count P
            ≤ cs.count P := by
              simpa using (List.filter_sublist cs).count_le P
          _ ≤ 1 := hcnt_cs

/-! ### C9 -/

/-- C9: the clean generator appends to debian/clean exactly the
clean_files entries whose text is not already present among the stripped
lines of the file, keeping the raw fragments of the previous content as a
prefix of the new fragment list; consequently, starting from no persisted
file, after any number of runs a path without surrounding whitespace
appears at most once in the persisted clean list. -/
theorem clean_no_duplicates (runs : List (List (List Char))) (P : List Char)
    (hP : pyStripCore P = P) (hPne : P ≠ [])
    (hruns : ∀ cs ∈ runs, cs.Nodup ∧ ∀ x ∈ cs, ('\n') ∉ x) :
    lineCount P (runs.foldl clean none) ≤ 1
    ∧ ∀ (s : List Char) (cs : List (List Char)), (∀ x ∈ cs, ('\n') ∉ x) →
        splitNL (contentOf (clean (some s) cs)) =
          splitNL s ++ cs.filter (fun i => !(listHas ((pyFileLines s).map pyStripCore) i)) := by
  constructor
  · have key : ∀ (rs : List (List (List Char))) (f : Option (List Char)),
        (∀ cs ∈ rs, cs.Nodup ∧ ∀ x ∈ cs, ('\n') ∉ x) →
        (splitNL (contentOf f)).count P ≤ 1 →
        (splitNL (contentOf (rs.foldl clean f))).count P ≤ 1 := by
      intro rs
      induction rs with
      | nil => intro f _ h; exact h
      | cons cs rest ih =>
        intro f h hle
        rw [List.foldl_cons]
        refine ih _ (fun cs2 h2 => h cs2 (List.mem_cons_of_mem _ h2)) ?_
        exact clean_count_le P hP hPne f cs (h cs (List.mem_cons_self _ _)).1
          (h cs (List.mem_cons_self _ _)).2 hle
    have h0 : (splitNL (contentOf (none : Option (List Char)))).count P ≤ 1 := by
      have : P ∉ [([] : List Char)] := by
        intro hm
        exact hPne (List.mem_singleton.mp hm)
      simp [contentOf, splitNL, List.count_eq_zero.mpr this]
    have hres := key runs none hruns h0
    rw [lineCount, count_pyFileLines _ P hPne]
    exact hres
  · intro s cs hnlcs
    unfold clean
    dsimp only
    split
    · rename_i hempty
      have hfil : cs.filter (fun i => !(listHas ((pyFileLines s).map pyStripCore) i)) = [] :=
        List.isEmpty_iff.mp hempty
      rw [hfil]
      simp [contentOf]
    · exact splitNL_flat _ s (fun f hf => hnlcs f (List.mem_of_mem_filter hf))

/-- Witness for C9: two runs, the second repeating the path of the first
next to a new one; the path a is persisted once. -/
theorem clean_no_duplicates_witness :
    (pyStripCore ['a'] = ['a'] ∧ (['a'] : List Char) ≠ []
      ∧ ∀ cs ∈ ([[['a']], [['a'], ['b']]] : List (List (List Char))),
          cs.Nodup ∧ ∀ x ∈ cs, ('\n') ∉ x)
    ∧ lineCount ['a'] (([[['a']], [['a'], ['b']]] : List (List (List Char))).foldl clean none) ≤ 1 :=
  ⟨⟨by decide, by decide, by decide⟩,
   (clean_no_duplicates [[['a']], [['a'], ['b']]] ['a'] (by decide) (by decide) (by decide)).1⟩

/-! ### C10 -/

/-- C10: the submission notice generator reads the root context key,
which the caller-supplied minimum context (name, src_name, version,
interpreters) does not contain and which no generator of the pipeline
sets; with no root binding, itp_mail raises a missing-key error and
writes nothing. -/
theorem itp_mail_missing_root (ctx : Ctx) (fs : FS) (render : String)
    (h : assocFind ctx "root" = none) :
    itp_mail ctx fs render = Except.error "KeyError: root" := by
  unfold itp_mail itpMailPath
  rw [h]

/-- Witness for C10: the minimum caller context together with the keys
the Context Builder itself adds, none of which is root. -/
theorem itp_mail_missing_root_witness :
    assocFind [("name", "foo"), ("src_name", "foo"), ("version", "1.0"),
      ("interpreters", "python3"), ("debian_revision", "0~pypi2deb")] "root" = none
    ∧ itp_mail [("name", "foo"), ("src_name", "foo"), ("version", "1.0"),
        ("interpreters", "python3"), ("debian_revision", "0~pypi2deb")] [] "body"
      = Except.error "KeyError: root" :=
  ⟨by decide,
   itp_mail_missing_root [("name", "foo"), ("src_name", "foo"), ("version", "1.0"),
     ("interpreters", "python3"), ("debian_revision", "0~pypi2deb")] [] "body" (by decide)⟩

end Pypi2deb
